import Mathlib

/-!
Verification development for the Obsidian "Recursive Note Deleter" plugin
(`src/main.ts`).  The development shallowly embeds the three core routines —
`getLinkedFiles` (the link-graph walker), `filterFilesToDelete` (the deletion
filter) and `removeBacklinks` (the backlink rewriter) — and proves or refutes
the behavioural properties stated in the specification.

Modelling conventions:
* Documents are elements of `Fin n` for a vault of `n` files.
* The host metadata cache is a `Vault` record: `hasCache f` tells whether
  `metadataCache.getFileCache(f)` returns a cache object, and `links f` /
  `embeds f` give, for each `link.link` / `embed.link` entry of that cache,
  the result of `getFirstLinkpathDest` (`none` = unresolvable reference).
* The walker's mutable JavaScript `Set` arguments are threaded explicitly:
  the visited set (shared, mutated in place across the recursion) is passed
  in and returned; the local result set `linkedFilesSet` is a duplicate-free
  list in insertion order (`Array.from` of a JS `Set` is exactly that).
* The recursion is driven by a fuel parameter; exhausting fuel yields
  `none`.  Termination of the walk is the (proved) statement that fuel
  `n + 1` is never exhausted.
* The `try`/`catch` around the recursive call is modelled by a fault oracle
  `fault : Fin n → Bool`: `fault t = true` means the recursive call on `t`
  throws (before mutating any state); the `catch` logs and the loop goes on.
  The run of the program in which no exception occurs is `fault = fun _ => false`.
-/

namespace RecursiveDelete

/-- A vault of `n` documents, as seen through the host metadata cache:
per-document cache presence, resolved link targets and resolved embed
targets (`none` models an unresolvable reference). -/
structure Vault (n : ℕ) where
  hasCache : Fin n → Bool
  links : Fin n → List (Option (Fin n))
  embeds : Fin n → List (Option (Fin n))

/-- JavaScript `Set.add` on a set represented as a duplicate-free list in
insertion order: append the element unless it is already present. -/
def insertOnce {α : Type} [DecidableEq α] (x : α) (l : List α) : List α :=
  if x ∈ l then l else l ++ [x]

/-- Merge a returned sub-result into the accumulator, mirroring
`....forEach(f => linkedFilesSet.add(f))`. -/
def addAll {α : Type} [DecidableEq α] (acc sub : List α) : List α :=
  sub.foldl (fun a x => insertOnce x a) acc

variable {n : ℕ}

/-- One walk result: the `linkedFilesSet` to be returned (insertion order)
together with the visited set as mutated by the call. -/
abbrev WalkRes (n : ℕ) := List (Fin n) × Finset (Fin n)

/-- The `cache.embeds.forEach` loop of `getLinkedFiles` (src/main.ts:104-114):
resolve each embed; skip unresolved ones; add a resolved target to the result
set when it is not in the visited set; never recurse and never mark visited. -/
def embedsLoop (visited : Finset (Fin n)) : List (Option (Fin n)) → List (Fin n) → List (Fin n)
  | [], acc => acc
  | none :: rest, acc => embedsLoop visited rest acc
  | some e :: rest, acc =>
      embedsLoop visited rest (if e ∈ visited then acc else insertOnce e acc)

/-- The `links.forEach` loop of `getLinkedFiles` (src/main.ts:87-99), with the
recursive self-call abstracted as `recurse`.  For each resolved, unvisited
target: add it to the result set; if `recursiveDelete` is on, recurse into it
inside `try`/`catch` (a faulting branch is caught and skipped) and merge the
sub-result.  The visited set is threaded because the source mutates one shared
`Set` object. -/
def linksLoop (rd : Bool) (fault : Fin n → Bool)
    (recurse : Fin n → Finset (Fin n) → Option (WalkRes n)) :
    List (Option (Fin n)) → List (Fin n) → Finset (Fin n) → Option (WalkRes n)
  | [], acc, visited => some (acc, visited)
  | none :: rest, acc, visited => linksLoop rd fault recurse rest acc visited
  | some t :: rest, acc, visited =>
      if t ∈ visited then linksLoop rd fault recurse rest acc visited
      else
        if rd then
          if fault t then linksLoop rd fault recurse rest (insertOnce t acc) visited
          else
            match recurse t visited with
            | none => none
            | some (sub, visited') =>
                linksLoop rd fault recurse rest (addAll (insertOnce t acc) sub) visited'
        else linksLoop rd fault recurse rest (insertOnce t acc) visited

/-- Fuel-indexed embedding of `getLinkedFiles(file, visited)`
(src/main.ts:78-120).  If the file has a cache and is unvisited, mark it
visited, run the links loop (recursing with one unit of fuel less), then the
embeds loop against the visited set as left by the links loop; otherwise
return an empty result and the untouched visited set.  `none` means the fuel
ran out. -/
def getLinkedFilesAux (g : Vault n) (rd : Bool) (fault : Fin n → Bool) :
    ℕ → Fin n → Finset (Fin n) → Option (WalkRes n)
  | 0, _, _ => none
  | fuel + 1, file, visited =>
      if g.hasCache file = true ∧ file ∉ visited then
        match linksLoop rd fault (fun t v => getLinkedFilesAux g rd fault fuel t v)
            (g.links file) [] (insert file visited) with
        | none => none
        | some (acc, v2) => some (embedsLoop v2 (g.embeds file) acc, v2)
      else some ([], visited)

/-- The top-level walk: `getLinkedFiles(file, new Set())`, run with enough
fuel (`n + 1`) for any `n`-document vault; returns the list of linked files. -/
def walk (g : Vault n) (rd : Bool) (fault : Fin n → Bool) (file : Fin n) : List (Fin n) :=
  match getLinkedFilesAux g rd fault (n + 1) file ∅ with
  | some (l, _) => l
  | none => []

/-! Exact characterisation of the walk result (claim C2).  The spec side:
a link step leads from a document whose cache the host knows to a resolved
link target; `Steps` is its reflexive-transitive closure.  The walk is
claimed to return exactly the documents one link/embed edge away from a
`Steps`-reachable document, the root excluded. -/

/-- One resolvable link edge out of a cached document. -/
def step (g : Vault n) (a b : Fin n) : Prop :=
  g.hasCache a = true ∧ some b ∈ g.links a

/-- Link-reachability through cached documents (the documents the walker
recurses into). -/
def Steps (g : Vault n) : Fin n → Fin n → Prop :=
  Relation.ReflTransGen (step g)

/-- A link or embed edge of the cache of `u` resolving to `x`. -/
def edgeOf (g : Vault n) (u x : Fin n) : Prop :=
  some x ∈ g.links u ∨ some x ∈ g.embeds u


/-- The three-document vault of the cyclic scenario: `A → B`, `B → C`,
`C → A` (documents 0, 1, 2), all cached, no embeds. -/
def cycleVault : Vault 3 where
  hasCache := fun _ => true
  links := fun i => if i = 0 then [some 1] else if i = 1 then [some 2] else [some 0]
  embeds := fun _ => []

/-- The vault of the embed scenario: root `A` (0) embeds attachment
`img.png` (1); the attachment itself (hypothetically) links to 2 and embeds
3 — references that must never be followed. -/
def embedVault : Vault 4 where
  hasCache := fun _ => true
  links := fun i => if i = 1 then [some 2] else []
  embeds := fun i => if i = 0 then [some 1] else if i = 1 then [some 3] else []

/-- The same vault with the attachment's own references removed. -/
def embedVaultPruned : Vault 4 where
  hasCache := fun _ => true
  links := fun _ => []
  embeds := fun i => if i = 0 then [some 1] else []

/-- The vault of the fault-isolation scenario: root 0 links to 1 and 2,
document 1 links on to 3, and the root embeds 4. -/
def faultVault : Vault 5 where
  hasCache := fun _ => true
  links := fun i =>
    if i = 0 then [some 1, some 2] else if i = 1 then [some 3] else []
  embeds := fun i => if i = 0 then [some 4] else []

/-- The two-document vault of the C2 witness: 0 links to 1. -/
def chainVault : Vault 2 where
  hasCache := fun _ => true
  links := fun i => if i = 0 then [some 1] else []
  embeds := fun _ => []

/-- The vault of the mixed links-and-embeds scenario: root 0 links to note 1
and embeds attachment 2; the linked note 1 embeds 3; the embed-reached
document 2 itself links on to 4 — a reference that must never be
followed. -/
def linkEmbedVault : Vault 5 where
  hasCache := fun _ => true
  links := fun i => if i = 0 then [some 1] else if i = 2 then [some 4] else []
  embeds := fun i => if i = 0 then [some 2] else if i = 1 then [some 3] else []

/-- The same vault with the embed-reached document's own references
removed. -/
def linkEmbedVaultPruned : Vault 5 where
  hasCache := fun _ => true
  links := fun i => if i = 0 then [some 1] else []
  embeds := fun i => if i = 0 then [some 2] else if i = 1 then [some 3] else []


/-! ### The deletion filter (`filterFilesToDelete`, src/main.ts:122-132) -/

/-- The fields of the host's file object that the filter and the rewriter
read: the file name (with extension) and the bare extension. -/
structure TFile where
  name : List Char
  extension : List Char
  deriving DecidableEq

/-- The `deleteMode` setting: `'both' | 'notes-only' | 'attachments-only'`. -/
inductive DeleteMode
  | both
  | notesOnly
  | attachmentsOnly
  deriving DecidableEq

/-- Embedding of `filterFilesToDelete`: keep a file unless the mode is
notes-only and the extension is not `md`, or the mode is attachments-only
and the extension is `md`. -/
def filterFilesToDelete (mode : DeleteMode) (files : List TFile) : List TFile :=
  files.filter fun file =>
    if mode = DeleteMode.notesOnly ∧ ¬ file.extension = ['m', 'd'] then false
    else if mode = DeleteMode.attachmentsOnly ∧ file.extension = ['m', 'd'] then false
    else true

/-! ### The backlink rewriter (`removeBacklinks`, src/main.ts:163-255)

Strings are modelled as `List Char`.  JavaScript regular expressions are
embedded as executable predicates over character lists; each embedded
predicate is annotated with the regex it models.  The model covers the
character repertoire the regexes are actually used on; of JavaScript's
`\s` class the six ASCII whitespace characters are modelled. -/

/-- JavaScript `\s` (and `String.trim`) on the ASCII range. -/
def isWsChar (c : Char) : Bool :=
  c = ' ' || c = '\t' || c = '\n' || c = '\r' || c = '\x0b' || c = '\x0c'

/-- `line.trim()`. -/
def trimList (l : List Char) : List Char :=
  ((l.dropWhile isWsChar).reverse.dropWhile isWsChar).reverse

/-- `data.split('\n')` (src/main.ts:202). -/
def splitNl : List Char → List (List Char)
  | [] => [[]]
  | c :: rest =>
      match splitNl rest with
      | [] => [[]]
      | h :: t => if c = '\n' then [] :: h :: t else (c :: h) :: t

/-- `newLines.join('\n')` (src/main.ts:246). -/
def joinNl : List (List Char) → List Char
  | [] => []
  | [l] => l
  | l :: ls => l ++ '\n' :: joinNl ls

/-- The standalone-reference test `/^\s*\[{2}.*?\]{2}\s*$/.test(s)`
(src/main.ts:209): optional whitespace, `[[`, any characters other than a
line terminator, `]]`, optional whitespace, end. -/
def reStandaloneCore (s : List Char) : Bool :=
  match s.dropWhile isWsChar with
  | '[' :: '[' :: rest =>
      match rest.reverse.dropWhile isWsChar with
      | ']' :: ']' :: mid => mid.all fun c => c ≠ '\n'
      | _ => false
  | _ => false

/-- The list-item test `/^\s*[-*+]\s/.test(s)` (src/main.ts:208). -/
def reListItem (s : List Char) : Bool :=
  match s.dropWhile isWsChar with
  | m :: c :: _ => (m = '-' || m = '*' || m = '+') && isWsChar c
  | _ => false

/-- The list-item standalone-reference test
`/^\s*[-*+]\s\[{2}.*?\]{2}\s*$/.test(s)` (src/main.ts:209): a bullet, one
whitespace character, then immediately a bracketed reference to the end. -/
def reListStandalone (s : List Char) : Bool :=
  match s.dropWhile isWsChar with
  | m :: c :: rest =>
      (m = '-' || m = '*' || m = '+') && isWsChar c &&
      (match rest with
       | '[' :: '[' :: rest2 =>
           (match rest2.reverse.dropWhile isWsChar with
            | ']' :: ']' :: mid => mid.all fun x => x ≠ '\n'
            | _ => false)
       | _ => false)
  | _ => false

/-- The standalone-link classification of one line (src/main.ts:207-209):
both regexes are applied to the trimmed line, the list-item variant only
when `considerListItemsAsStandalone` is set. -/
def isStandaloneLink (considerList : Bool) (line : List Char) : Bool :=
  let t := trimList line
  reStandaloneCore t || (considerList && reListItem t && reListStandalone t)

/-- `file.name.replace(/\.md\\$/, '')` (src/main.ts:166): the regex matches
the four-character suffix `.md\` — dot, `m`, `d`, a literal backslash — so
only that suffix is removed.  (The code's own comment expects the `.md`
suffix to be removed; see claim C3.) -/
def deriveName (fname : List Char) : List Char :=
  if fname.reverse.take 4 = ['\\', 'd', 'm', '.'] then (fname.reverse.drop 4).reverse
  else fname

/-- The characters escaped by `name.replace(/[.*+?^\\${}()|[\]\\]/g, ...)`
(src/main.ts:219). -/
def isRegexSpecial (c : Char) : Bool :=
  ['.', '*', '+', '?', '^', '\\', '$', '\x7b', '\x7d', '(', ')', '|', '[', ']'].contains c

/-- `name.replace(/[.*+?^\\${}()|[\]\\]/g, '\\\\$&')` (src/main.ts:219): the
replacement string is backslash-backslash-match, so every special character
gains TWO backslashes in front (the code's comment intends single-backslash
escaping). -/
def escapeName (name : List Char) : List Char :=
  name.flatMap fun c => if isRegexSpecial c then ['\\', '\\', c] else [c]

/-- One single-character atom of the dynamic pattern: a literal character or
the `.` wildcard. -/
inductive RAtom
  | lit (c : Char)
  | anyChar
  deriving DecidableEq

/-- How the regex engine reads the escaped name inside the pattern of
src/main.ts:221: `\c` is the literal `c`, a bare `.` is the wildcard, any
other bare character is itself.  (Because of the double escaping, `.` in a
name becomes `\\.` — a literal backslash followed by the wildcard.)  The
model covers names whose special characters are limited to `.`; other
regex metacharacters would produce quantifiers, groups or class syntax —
or a construction error — and no claim exercises them. -/
def parseAtoms : List Char → List RAtom
  | '\\' :: c :: rest => RAtom.lit c :: parseAtoms rest
  | ['\\'] => [RAtom.lit '\\']
  | '.' :: rest => RAtom.anyChar :: parseAtoms rest
  | c :: rest => RAtom.lit c :: parseAtoms rest
  | [] => []

/-- Case-insensitive character comparison (the `i` flag). -/
def ciEq (a b : Char) : Bool := a.toLower = b.toLower

def atomMatches : RAtom → Char → Bool
  | RAtom.lit c, x => ciEq c x
  | RAtom.anyChar, x => x ≠ '\n'

/-- Match a sequence of one-character atoms against a prefix of the input,
returning the rest. -/
def atomsConsume : List RAtom → List Char → Option (List Char)
  | [], cs => some cs
  | _ :: _, [] => none
  | a :: as, x :: cs => if atomMatches a x then atomsConsume as cs else none

/-- Case-insensitive literal-prefix test. -/
def ciStarts : List Char → List Char → Bool
  | [], _ => true
  | _ :: _, [] => false
  | p :: ps, x :: cs => ciEq p x && ciStarts ps cs

/-- Is `\]\]` next? -/
def closeBr : List Char → Bool
  | ']' :: ']' :: _ => true
  | _ => false

/-- Match `(?:#.*)?\]\]` at the head of the input, returning the number of
characters consumed.  The optional group is greedy and `.*` prefers the
longest extent, as in JavaScript. -/
def hashEnd (cs : List Char) : Option ℕ :=
  (match cs with
   | '#' :: after =>
       (List.range (after.length + 1)).reverse.findSome? fun j =>
         if (after.take j).all (fun c => c ≠ '\n') && closeBr (after.drop j) then
           some (1 + j + 2)
         else none
   | _ => none) <|>
  (if closeBr cs then some 2 else none)

/-- Match `(?:\.md)?(?:#.*)?\]\]` at the head of the input (the optional
`\.md` group is tried first, as in JavaScript). -/
def mdEnd (cs : List Char) : Option ℕ :=
  (if ciStarts ['.', 'm', 'd'] cs then (hashEnd (cs.drop 3)).map (fun t => t + 3) else none) <|>
  hashEnd cs

/-- Match `.*?ATOMS(?:\.md)?(?:#.*)?\]\]` against the input following `[[`:
the lazy `.*?` tries gap lengths from the shortest up. -/
def bodyMatch (atoms : List RAtom) (body : List Char) : Option ℕ :=
  (List.range (body.length + 1)).findSome? fun k =>
    if (body.take k).all (fun c => c ≠ '\n') then
      match atomsConsume atoms (body.drop k) with
      | some rest => (mdEnd rest).map fun t => k + atoms.length + t
      | none => none
    else none

/-- Match one alternative of the pattern of src/main.ts:221 at the current
position — `\[\[…\]\]` first, then `!\[\[…\]\]` — returning the match
length. -/
def patAt (atoms : List RAtom) (cs : List Char) : Option ℕ :=
  (match cs with
   | '[' :: '[' :: body => (bodyMatch atoms body).map fun t => t + 2
   | _ => none) <|>
  (match cs with
   | '!' :: '[' :: '[' :: body => (bodyMatch atoms body).map fun t => t + 3
   | _ => none)

/-- `linkPattern.test(line)` (src/main.ts:223): does the pattern match
anywhere in the line? -/
def patTest (atoms : List RAtom) (cs : List Char) : Bool :=
  (List.range (cs.length + 1)).any fun i => (patAt atoms (cs.drop i)).isSome

/-- The `inlineLinkBehavior` setting:
`'remove-link' | 'keep-name' | 'add-note'`. -/
inductive InlinePolicy
  | removeLink
  | keepName
  | addNote
  deriving DecidableEq

/-- The replacement callback of src/main.ts:226-237: remove the match, strip
all square brackets from it, or substitute the placeholder text. -/
def policyText (policy : InlinePolicy) (matched : List Char) : List Char :=
  match policy with
  | InlinePolicy.removeLink => []
  | InlinePolicy.keepName => matched.filter fun c => ¬ (c = '[' || c = ']')
  | InlinePolicy.addNote => ("BACKLINK REMOVED").toList

/-- Global regex replace, scanning left to right, replacing each
(necessarily nonempty) match and continuing after it; fuelled structurally
(`length + 1` suffices since every step consumes at least one character). -/
def replaceAllAux (policy : InlinePolicy) (atoms : List RAtom) : ℕ → List Char → List Char
  | 0, cs => cs
  | _ + 1, [] => []
  | fuel + 1, c :: rest =>
      match patAt atoms (c :: rest) with
      | some len =>
          policyText policy ((c :: rest).take len) ++
            replaceAllAux policy atoms fuel ((c :: rest).drop len)
      | none => c :: replaceAllAux policy atoms fuel rest

/-- `line.replace(linkPattern, callback)` with the global flag. -/
def replaceAll (policy : InlinePolicy) (atoms : List RAtom) (cs : List Char) : List Char :=
  replaceAllAux policy atoms (cs.length + 1) cs

/-- The `fileNames.forEach` body (src/main.ts:218-239) folded over one line:
for each deleted file's name build the pattern, and when it tests positive
set the changed flag and rewrite the line in place. -/
def rewriteNamesLoop (policy : InlinePolicy) :
    List (List Char) → List Char × Bool → List Char × Bool
  | [], st => st
  | name :: rest, (line, changed) =>
      let atoms := parseAtoms (escapeName name)
      if patTest atoms line then
        rewriteNamesLoop policy rest (replaceAll policy atoms line, true)
      else rewriteNamesLoop policy rest (line, changed)

/-- The per-line loop of src/main.ts:205-242: a standalone-reference line is
dropped (and the document marked changed); any other line is run through the
per-name rewriting and kept. -/
def processLinesLoop (names : List (List Char)) (policy : InlinePolicy)
    (considerList : Bool) : List (List Char) → List (List Char) × Bool
  | [] => ([], false)
  | line :: rest =>
      let tail := processLinesLoop names policy considerList rest
      if isStandaloneLink considerList line then (tail.1, true)
      else
        let st := rewriteNamesLoop policy names (line, false)
        (st.1 :: tail.1, st.2 || tail.2)

/-- Processing of one referencing document (src/main.ts:194-249): split into
lines, transform, and — only if the changed flag was set — write the joined
result back (`some newContent`); otherwise the document is not written
(`none`). -/
def removeBacklinksInFile (names : List (List Char)) (policy : InlinePolicy)
    (considerList : Bool) (data : List Char) : Option (List Char) :=
  let st := processLinesLoop names policy considerList (splitNl data)
  if st.2 then some (joinNl st.1) else none

/-- The name list derived from the deleted files (src/main.ts:166). -/
def backlinkNames (files : List TFile) : List (List Char) :=
  files.map fun file => deriveName file.name


/-! Basic lemmas about the small set/list helpers. -/

theorem mem_insertOnce {α : Type} [DecidableEq α] {x y : α} {l : List α} :
    x ∈ insertOnce y l ↔ x = y ∨ x ∈ l := by
  unfold insertOnce
  split
  · constructor
    · exact fun h => Or.inr h
    · rintro (rfl | h) <;> assumption
  · simp [or_comm]

theorem insertOnce_nodup {α : Type} [DecidableEq α] {y : α} {l : List α}
    (h : l.Nodup) : (insertOnce y l).Nodup := by
  unfold insertOnce
  split
  · exact h
  · rw [List.nodup_append]
    exact ⟨h, List.nodup_singleton y, by simpa using fun hy => by simp_all⟩

theorem subset_insertOnce {α : Type} [DecidableEq α] (y : α) (l : List α) :
    l ⊆ insertOnce y l := fun _ h => mem_insertOnce.mpr (Or.inr h)

theorem mem_addAll {α : Type} [DecidableEq α] {x : α} {acc sub : List α} :
    x ∈ addAll acc sub ↔ x ∈ acc ∨ x ∈ sub := by
  induction sub generalizing acc with
  | nil => simp [addAll]
  | cons y ys ih =>
      show x ∈ addAll (insertOnce y acc) ys ↔ _
      rw [ih, mem_insertOnce]
      simp
      tauto

theorem addAll_nodup {α : Type} [DecidableEq α] {acc : List α} (sub : List α)
    (h : acc.Nodup) : (addAll acc sub).Nodup := by
  induction sub generalizing acc with
  | nil => exact h
  | cons y ys ih => exact ih (insertOnce_nodup h)

theorem subset_addAll {α : Type} [DecidableEq α] (acc sub : List α) :
    acc ⊆ addAll acc sub := fun _ h => mem_addAll.mpr (Or.inl h)

theorem mem_embedsLoop {v : Finset (Fin n)} {es : List (Option (Fin n))}
    {acc : List (Fin n)} {x : Fin n} :
    x ∈ embedsLoop v es acc ↔ x ∈ acc ∨ (some x ∈ es ∧ x ∉ v) := by
  induction es generalizing acc with
  | nil => simp [embedsLoop]
  | cons e rest ih =>
      match e with
      | none => rw [embedsLoop, ih]; simp
      | some t =>
          rw [embedsLoop, ih]
          by_cases ht : t ∈ v
          · simp only [if_pos ht]
            constructor
            · rintro (h | h)
              · exact Or.inl h
              · exact Or.inr ⟨List.mem_cons_of_mem _ h.1, h.2⟩
            · rintro (h | ⟨hm, hx⟩)
              · exact Or.inl h
              · rcases List.mem_cons.mp hm with h | h
                · cases Option.some_injective _ h.symm; exact absurd ht hx
                · exact Or.inr ⟨h, hx⟩
          · simp only [if_neg ht, mem_insertOnce]
            constructor
            · rintro ((rfl | h) | h)
              · exact Or.inr ⟨List.mem_cons_self _ _, ht⟩
              · exact Or.inl h
              · exact Or.inr ⟨List.mem_cons_of_mem _ h.1, h.2⟩
            · rintro (h | ⟨hm, hx⟩)
              · exact Or.inl (Or.inr h)
              · rcases List.mem_cons.mp hm with h | h
                · cases Option.some_injective _ h.symm; exact Or.inl (Or.inl rfl)
                · exact Or.inr ⟨h, hx⟩

theorem embedsLoop_nodup {v : Finset (Fin n)} {es : List (Option (Fin n))}
    {acc : List (Fin n)} (h : acc.Nodup) : (embedsLoop v es acc).Nodup := by
  induction es generalizing acc with
  | nil => exact h
  | cons e rest ih =>
      match e with
      | none => exact ih h
      | some t =>
          rw [embedsLoop]
          split
          · exact ih h
          · exact ih (insertOnce_nodup h)

theorem subset_embedsLoop (v : Finset (Fin n)) (es : List (Option (Fin n)))
    (acc : List (Fin n)) : acc ⊆ embedsLoop v es acc :=
  fun _ h => mem_embedsLoop.mpr (Or.inl h)

/-! Monotonicity of the shared visited set: a call only ever adds to it
(the source mutates one shared `Set` and never removes). -/

theorem linksLoop_mono {rd : Bool} {fault : Fin n → Bool}
    {recurse : Fin n → Finset (Fin n) → Option (WalkRes n)}
    (hrec : ∀ t v l v', recurse t v = some (l, v') → v ⊆ v') :
    ∀ ls acc v l v', linksLoop rd fault recurse ls acc v = some (l, v') → v ⊆ v' := by
  intro ls
  induction ls with
  | nil => intro acc v l v' h; cases h; exact Finset.Subset.refl _
  | cons ol rest ih =>
      intro acc v l v' h
      match ol with
      | none => exact ih _ _ _ _ h
      | some t =>
          rw [linksLoop] at h
          split at h
          · exact ih _ _ _ _ h
          · split at h
            · split at h
              · exact ih _ _ _ _ h
              · match hr : recurse t v with
                | none => rw [hr] at h; cases h
                | some (sub, v1) =>
                    rw [hr] at h
                    exact (hrec _ _ _ _ hr).trans (ih _ _ _ _ h)
            · exact ih _ _ _ _ h

theorem getLinkedFilesAux_mono (g : Vault n) (rd : Bool) (fault : Fin n → Bool) :
    ∀ fuel file v l v', getLinkedFilesAux g rd fault fuel file v = some (l, v') → v ⊆ v' := by
  intro fuel
  induction fuel with
  | zero => intro file v l v' h; cases h
  | succ fuel ih =>
      intro file v l v' h
      rw [getLinkedFilesAux] at h
      split at h
      · match hl : linksLoop rd fault (fun t w => getLinkedFilesAux g rd fault fuel t w)
            (g.links file) [] (insert file v) with
        | none => rw [hl] at h; cases h
        | some (acc, v2) =>
            rw [hl] at h
            cases h
            exact (Finset.subset_insert _ _).trans
              (linksLoop_mono (fun t w l1 w1 hw => ih t w l1 w1 hw) _ _ _ _ _ hl)
      · cases h; exact Finset.Subset.refl _

/-! Termination: with fuel `n + 1` the walk never runs out of fuel, on any
vault, any configuration and any fault pattern — each unit of fuel is spent
only after a previously unvisited document is added to the visited set, and
there are only `n` documents. -/

theorem linksLoop_isSome {rd : Bool} {fault : Fin n → Bool}
    {recurse : Fin n → Finset (Fin n) → Option (WalkRes n)} {B : ℕ}
    (hsome : ∀ t v, (Finset.univ \ v).card < B → (recurse t v).isSome)
    (hrec : ∀ t v l v', recurse t v = some (l, v') → v ⊆ v') :
    ∀ ls acc v, (Finset.univ \ v).card < B →
      (linksLoop rd fault recurse ls acc v).isSome := by
  intro ls
  induction ls with
  | nil => intro acc v _; rw [linksLoop]; rfl
  | cons ol rest ih =>
      intro acc v hv
      match ol with
      | none => exact ih _ _ hv
      | some t =>
          rw [linksLoop]
          split
          · exact ih _ _ hv
          · split
            · split
              · exact ih _ _ hv
              · match hr : recurse t v with
                | none =>
                    have := hsome t v hv
                    rw [hr] at this; cases this
                | some (sub, v1) =>
                    have hsub : v ⊆ v1 := hrec _ _ _ _ hr
                    have hcard : (Finset.univ \ v1).card < B :=
                      lt_of_le_of_lt
                        (Finset.card_le_card (Finset.sdiff_subset_sdiff
                          (Finset.Subset.refl _) hsub)) hv
                    exact ih _ _ hcard
            · exact ih _ _ hv

theorem getLinkedFilesAux_isSome (g : Vault n) (rd : Bool) (fault : Fin n → Bool) :
    ∀ fuel file v, (Finset.univ \ v).card < fuel →
      (getLinkedFilesAux g rd fault fuel file v).isSome := by
  intro fuel
  induction fuel with
  | zero => intro file v h; omega
  | succ fuel ih =>
      intro file v hv
      rw [getLinkedFilesAux]
      split
      · have hfile : file ∈ Finset.univ \ v := by
          rename_i hcond
          exact Finset.mem_sdiff.mpr ⟨Finset.mem_univ _, hcond.2⟩
        have hins : Finset.univ \ insert file v = (Finset.univ \ v).erase file := by
          ext x
          simp only [Finset.mem_sdiff, Finset.mem_insert, Finset.mem_erase, Finset.mem_univ,
            true_and]
          tauto
        have hcard : (Finset.univ \ insert file v).card < fuel := by
          rw [hins, Finset.card_erase_of_mem hfile]
          have h1 : 1 ≤ (Finset.univ \ v).card := Finset.card_pos.mpr ⟨file, hfile⟩
          omega
        have := @linksLoop_isSome n rd fault
          (fun t w => getLinkedFilesAux g rd fault fuel t w) fuel
          (fun t w hw => ih t w hw)
          (fun t w l1 w1 hw => getLinkedFilesAux_mono g rd fault fuel t w l1 w1 hw)
          (g.links file) [] (insert file v) hcard
        match hl : linksLoop rd fault (fun t w => getLinkedFilesAux g rd fault fuel t w)
            (g.links file) [] (insert file v) with
        | none => rw [hl] at this; cases this
        | some (acc, v2) => rfl
      · rfl

/-! The returned list never repeats a document (it is `Array.from` of a
JavaScript `Set`, here: an insertion-ordered duplicate-free list). -/

theorem linksLoop_nodup {rd : Bool} {fault : Fin n → Bool}
    {recurse : Fin n → Finset (Fin n) → Option (WalkRes n)} :
    ∀ ls acc v l v', linksLoop rd fault recurse ls acc v = some (l, v') →
      acc.Nodup → l.Nodup := by
  intro ls
  induction ls with
  | nil => intro acc v l v' h hacc; cases h; exact hacc
  | cons ol rest ih =>
      intro acc v l v' h hacc
      match ol with
      | none => exact ih _ _ _ _ h hacc
      | some t =>
          rw [linksLoop] at h
          split at h
          · exact ih _ _ _ _ h hacc
          · split at h
            · split at h
              · exact ih _ _ _ _ h (insertOnce_nodup hacc)
              · match hr : recurse t v with
                | none => rw [hr] at h; cases h
                | some (sub, v1) =>
                    rw [hr] at h
                    exact ih _ _ _ _ h (addAll_nodup _ (insertOnce_nodup hacc))
            · exact ih _ _ _ _ h (insertOnce_nodup hacc)

theorem getLinkedFilesAux_nodup (g : Vault n) (rd : Bool) (fault : Fin n → Bool)
    (fuel : ℕ) (file : Fin n) (v : Finset (Fin n)) (l : List (Fin n)) (v' : Finset (Fin n))
    (h : getLinkedFilesAux g rd fault fuel file v = some (l, v')) : l.Nodup := by
  match fuel with
  | 0 => cases h
  | fuel + 1 =>
      rw [getLinkedFilesAux] at h
      split at h
      · match hl : linksLoop rd fault (fun t w => getLinkedFilesAux g rd fault fuel t w)
            (g.links file) [] (insert file v) with
        | none => rw [hl] at h; cases h
        | some (acc, v2) =>
            rw [hl] at h
            cases h
            exact embedsLoop_nodup (linksLoop_nodup _ _ _ _ _ hl List.nodup_nil)
      · cases h; exact List.nodup_nil

theorem walk_nodup (g : Vault n) (rd : Bool) (fault : Fin n → Bool) (file : Fin n) :
    (walk g rd fault file).Nodup := by
  unfold walk
  match h : getLinkedFilesAux g rd fault (n + 1) file ∅ with
  | none => exact List.nodup_nil
  | some (l, v') => exact getLinkedFilesAux_nodup g rd fault _ _ _ _ _ h

/-- C1: on every reference graph — cycles, self-loops and diamonds included —
the walk with an empty initial visited set terminates (fuel `n + 1` is never
exhausted, for any configuration and fault pattern), the returned list
contains each document at most once, and on the concrete cycle
`A → B → C → A` with recursive descent the walk of `A` returns exactly
`[B, C]`, visiting nobody twice. -/
theorem C1_walk_terminates_and_dedups :
    (∀ (n : ℕ) (g : Vault n) (rd : Bool) (fault : Fin n → Bool) (file : Fin n),
        (getLinkedFilesAux g rd fault (n + 1) file ∅).isSome) ∧
    (∀ (n : ℕ) (g : Vault n) (rd : Bool) (fault : Fin n → Bool) (file : Fin n),
        (walk g rd fault file).Nodup) ∧
    walk cycleVault true (fun _ => false) 0 = [1, 2] := by
  refine ⟨fun n g rd fault file => ?_, fun n g rd fault file => walk_nodup g rd fault file,
    by decide⟩
  apply getLinkedFilesAux_isSome
  rw [Finset.sdiff_empty, Finset.card_univ, Fintype.card_fin]
  omega

/-! Embeds are leaves: the embeds loop neither recurses nor consults the
vault beyond the current document, so for a document without links the whole
walk depends only on that document's own cache flag and embed list. -/

theorem walk_no_links (g : Vault n) (rd : Bool) (fault : Fin n → Bool) (file : Fin n)
    (h : g.links file = []) :
    walk g rd fault file =
      if g.hasCache file = true then embedsLoop (insert file ∅) (g.embeds file) [] else [] := by
  unfold walk
  rw [getLinkedFilesAux, h]
  by_cases hc : g.hasCache file = true
  · simp [hc, linksLoop]
  · simp [hc]

/-- C8: an exception raised while recursing into one link branch is caught
inside that branch and the walk goes on with the remaining link and embed
edges.  Concretely: when the recursive call on document 1 throws, the walk of
the root still returns `[1, 2, 4]` — the faulty branch's own target (added
before the `try`), the other link branch and the embed; and under every fault
pattern whatsoever the root's direct link targets 1 and 2 and embed target 4
are in the result. -/
theorem C8_branch_fault_is_isolated :
    walk faultVault true (fun t => decide (t = 1)) 0 = [1, 2, 4] ∧
    ∀ fault : Fin 5 → Bool,
      1 ∈ walk faultVault true fault 0 ∧
      2 ∈ walk faultVault true fault 0 ∧
      4 ∈ walk faultVault true fault 0 := by
  exact ⟨by decide, by decide⟩

/-! Soundness of the visited set: every document it gains was
link-reachable from the argument document. -/

theorem linksLoop_visited_sound {g : Vault n}
    {recurse : Fin n → Finset (Fin n) → Option (WalkRes n)}
    (hrec : ∀ t v l v', recurse t v = some (l, v') →
      ∀ u ∈ v', u ∈ v ∨ (Steps g t u ∧ g.hasCache u = true)) :
    ∀ ls acc v l v', linksLoop true (fun _ => false) recurse ls acc v = some (l, v') →
      ∀ u ∈ v', u ∈ v ∨ ∃ t, some t ∈ ls ∧ Steps g t u ∧ g.hasCache u = true := by
  intro ls
  induction ls with
  | nil => intro acc v l v' h u hu; cases h; exact Or.inl hu
  | cons ol rest ih =>
      intro acc v l v' h u hu
      match ol with
      | none =>
          rcases ih _ _ _ _ h u hu with h1 | ⟨t, ht, h2⟩
          · exact Or.inl h1
          · exact Or.inr ⟨t, List.mem_cons_of_mem _ ht, h2⟩
      | some t =>
          rw [linksLoop] at h
          split at h
          · rcases ih _ _ _ _ h u hu with h1 | ⟨t', ht', h2⟩
            · exact Or.inl h1
            · exact Or.inr ⟨t', List.mem_cons_of_mem _ ht', h2⟩
          · rw [if_pos rfl, if_neg Bool.false_ne_true] at h
            match hr : recurse t v with
            | none => rw [hr] at h; cases h
            | some (sub, v1) =>
                rw [hr] at h
                rcases ih _ _ _ _ h u hu with h1 | ⟨t', ht', h2⟩
                · rcases hrec _ _ _ _ hr u h1 with h2 | h2
                  · exact Or.inl h2
                  · exact Or.inr ⟨t, List.mem_cons_self _ _, h2⟩
                · exact Or.inr ⟨t', List.mem_cons_of_mem _ ht', h2⟩

theorem getLinkedFilesAux_visited_sound (g : Vault n) :
    ∀ fuel file v l v',
      getLinkedFilesAux g true (fun _ => false) fuel file v = some (l, v') →
      ∀ u ∈ v', u ∈ v ∨ (Steps g file u ∧ g.hasCache u = true) := by
  intro fuel
  induction fuel with
  | zero => intro file v l v' h; cases h
  | succ fuel ih =>
      intro file v l v' h u hu
      rw [getLinkedFilesAux] at h
      split at h
      · rename_i hcond
        match hl : linksLoop true (fun _ => false)
            (fun t w => getLinkedFilesAux g true (fun _ => false) fuel t w)
            (g.links file) [] (insert file v) with
        | none => rw [hl] at h; cases h
        | some (acc, v2) =>
            rw [hl] at h
            cases h
            rcases linksLoop_visited_sound (fun t w l1 w1 hw => ih t w l1 w1 hw)
                _ _ _ _ _ hl u hu with h1 | ⟨t, ht, hsteps, hcu⟩
            · rcases Finset.mem_insert.mp h1 with rfl | h2
              · exact Or.inr ⟨Relation.ReflTransGen.refl, hcond.1⟩
              · exact Or.inl h2
            · exact Or.inr ⟨Relation.ReflTransGen.head ⟨hcond.1, ht⟩ hsteps, hcu⟩
      · cases h; exact Or.inl hu

/-- Every cached document reaches the visited set of its own walk call. -/
theorem getLinkedFilesAux_visited_entry (g : Vault n) (rd : Bool) (fault : Fin n → Bool)
    (fuel : ℕ) (file : Fin n) (v : Finset (Fin n)) (l : List (Fin n)) (v' : Finset (Fin n))
    (h : getLinkedFilesAux g rd fault fuel file v = some (l, v'))
    (hc : g.hasCache file = true) : file ∈ v' := by
  match fuel with
  | 0 => cases h
  | fuel + 1 =>
      rw [getLinkedFilesAux] at h
      split at h
      · match hl : linksLoop rd fault (fun t w => getLinkedFilesAux g rd fault fuel t w)
            (g.links file) [] (insert file v) with
        | none => rw [hl] at h; cases h
        | some (acc, v2) =>
            rw [hl] at h
            cases h
            exact linksLoop_mono
              (fun t w l1 w1 hw => getLinkedFilesAux_mono g rd fault fuel t w l1 w1 hw)
              _ _ _ _ _ hl (Finset.mem_insert_self _ _)
      · cases h
        rename_i hcond
        by_cases hv : file ∈ v
        · exact hv
        · exact absurd ⟨hc, hv⟩ hcond

/-! Completeness of the visited set: once the loop has run, every link
target of every newly visited document has been visited in turn (if cached),
and every cached worklist entry has been visited. -/

theorem linksLoop_closure {g : Vault n}
    {recurse : Fin n → Finset (Fin n) → Option (WalkRes n)}
    (hmono : ∀ t v l v', recurse t v = some (l, v') → v ⊆ v')
    (hclos : ∀ t v l v', recurse t v = some (l, v') →
      ∀ u ∈ v', u ∉ v → ∀ s, some s ∈ g.links u → g.hasCache s = true → s ∈ v')
    (hentry : ∀ t v l v', recurse t v = some (l, v') → g.hasCache t = true → t ∈ v') :
    ∀ ls acc v l v', linksLoop true (fun _ => false) recurse ls acc v = some (l, v') →
      (∀ u ∈ v', u ∉ v → ∀ s, some s ∈ g.links u → g.hasCache s = true → s ∈ v') ∧
      (∀ t, some t ∈ ls → g.hasCache t = true → t ∈ v') := by
  intro ls
  induction ls with
  | nil =>
      intro acc v l v' h
      cases h
      exact ⟨fun u hu hnu _ _ _ => absurd hu hnu, fun t ht => absurd ht (by simp)⟩
  | cons ol rest ih =>
      intro acc v l v' h
      match ol with
      | none =>
          obtain ⟨h1, h2⟩ := ih _ _ _ _ h
          exact ⟨h1, fun t ht hc => h2 t (by simpa using ht) hc⟩
      | some t =>
          rw [linksLoop] at h
          have hloopmono := @linksLoop_mono n true (fun _ => false) recurse hmono
          split at h
          · rename_i htv
            obtain ⟨h1, h2⟩ := ih _ _ _ _ h
            refine ⟨h1, fun t' ht' hc => ?_⟩
            rcases List.mem_cons.mp ht' with h3 | h3
            · cases Option.some_injective _ h3.symm
              exact hloopmono _ _ _ _ _ h htv
            · exact h2 t' h3 hc
          · rename_i htv
            rw [if_pos rfl, if_neg Bool.false_ne_true] at h
            match hr : recurse t v with
            | none => rw [hr] at h; cases h
            | some (sub, v1) =>
                rw [hr] at h
                obtain ⟨h1, h2⟩ := ih _ _ _ _ h
                have hv1 : v1 ⊆ v' := hloopmono _ _ _ _ _ h
                constructor
                · intro u hu hnu s hs hcs
                  by_cases huv1 : u ∈ v1
                  · exact hv1 (hclos _ _ _ _ hr u huv1 hnu s hs hcs)
                  · exact h1 u hu huv1 s hs hcs
                · intro t' ht' hc
                  rcases List.mem_cons.mp ht' with h3 | h3
                  · cases Option.some_injective _ h3.symm
                    exact hv1 (hentry _ _ _ _ hr hc)
                  · exact h2 t' h3 hc

theorem getLinkedFilesAux_closure (g : Vault n) :
    ∀ fuel file v l v',
      getLinkedFilesAux g true (fun _ => false) fuel file v = some (l, v') →
      ∀ u ∈ v', u ∉ v → ∀ s, some s ∈ g.links u → g.hasCache s = true → s ∈ v' := by
  intro fuel
  induction fuel with
  | zero => intro file v l v' h; cases h
  | succ fuel ih =>
      intro file v l v' h u hu hnu s hs hcs
      rw [getLinkedFilesAux] at h
      split at h
      · match hl : linksLoop true (fun _ => false)
            (fun t w => getLinkedFilesAux g true (fun _ => false) fuel t w)
            (g.links file) [] (insert file v) with
        | none => rw [hl] at h; cases h
        | some (acc, v2) =>
            rw [hl] at h
            cases h
            obtain ⟨h1, h2⟩ := linksLoop_closure
              (fun t w l1 w1 hw => getLinkedFilesAux_mono g true (fun _ => false) fuel t w l1 w1 hw)
              (fun t w l1 w1 hw => ih t w l1 w1 hw)
              (fun t w l1 w1 hw hc => getLinkedFilesAux_visited_entry g true (fun _ => false)
                fuel t w l1 w1 hw hc)
              _ _ _ _ _ hl
            by_cases hufile : u = file
            · subst hufile
              exact h2 s hs hcs
            · exact h1 u hu (fun hins => (Finset.mem_insert.mp hins).elim hufile hnu) s hs hcs
      · cases h; exact absurd hu hnu

/-- The result set only grows along the links loop. -/
theorem linksLoop_acc_subset {rd : Bool} {fault : Fin n → Bool}
    {recurse : Fin n → Finset (Fin n) → Option (WalkRes n)} :
    ∀ ls acc v l v', linksLoop rd fault recurse ls acc v = some (l, v') → acc ⊆ l := by
  intro ls
  induction ls with
  | nil => intro acc v l v' h; cases h; exact fun _ hx => hx
  | cons ol rest ih =>
      intro acc v l v' h
      match ol with
      | none => exact ih _ _ _ _ h
      | some t =>
          rw [linksLoop] at h
          split at h
          · exact ih _ _ _ _ h
          · split at h
            · split at h
              · exact (subset_insertOnce t acc).trans (ih _ _ _ _ h)
              · match hr : recurse t v with
                | none => rw [hr] at h; cases h
                | some (sub, v1) =>
                    rw [hr] at h
                    exact ((subset_insertOnce t acc).trans (subset_addAll _ _)).trans
                      (ih _ _ _ _ h)
            · exact (subset_insertOnce t acc).trans (ih _ _ _ _ h)

/-- Every document that the loop adds to the visited set is also added to
the result set (documents are only marked visited when the walker recurses
into them, and they are put into the result just before that). -/
theorem linksLoop_new_visited_in_result
    {recurse : Fin n → Finset (Fin n) → Option (WalkRes n)}
    (hrec : ∀ t v l v', recurse t v = some (l, v') →
      ∀ u ∈ v', u ∉ insert t v → u ∈ l) :
    ∀ ls acc v l v', linksLoop true (fun _ => false) recurse ls acc v = some (l, v') →
      ∀ u ∈ v', u ∉ v → u ∈ l := by
  intro ls
  induction ls with
  | nil => intro acc v l v' h u hu hnu; cases h; exact absurd hu hnu
  | cons ol rest ih =>
      intro acc v l v' h u hu hnu
      match ol with
      | none => exact ih _ _ _ _ h u hu hnu
      | some t =>
          rw [linksLoop] at h
          split at h
          · exact ih _ _ _ _ h u hu hnu
          · rw [if_pos rfl, if_neg Bool.false_ne_true] at h
            match hr : recurse t v with
            | none => rw [hr] at h; cases h
            | some (sub, v1) =>
                rw [hr] at h
                by_cases huv1 : u ∈ v1
                · have hal : u ∈ addAll (insertOnce t acc) sub := by
                    by_cases hut : u = t
                    · exact mem_addAll.mpr (Or.inl (mem_insertOnce.mpr (Or.inl hut)))
                    · refine mem_addAll.mpr (Or.inr ?_)
                      exact hrec _ _ _ _ hr u huv1
                        (fun hins => (Finset.mem_insert.mp hins).elim hut hnu)
                  exact linksLoop_acc_subset _ _ _ _ _ h hal
                · exact ih _ _ _ _ h u hu huv1

theorem getLinkedFilesAux_new_visited_in_result (g : Vault n) :
    ∀ fuel file v l v',
      getLinkedFilesAux g true (fun _ => false) fuel file v = some (l, v') →
      ∀ u ∈ v', u ∉ insert file v → u ∈ l := by
  intro fuel
  induction fuel with
  | zero => intro file v l v' h; cases h
  | succ fuel ih =>
      intro file v l v' h u hu hnu
      rw [getLinkedFilesAux] at h
      split at h
      · match hl : linksLoop true (fun _ => false)
            (fun t w => getLinkedFilesAux g true (fun _ => false) fuel t w)
            (g.links file) [] (insert file v) with
        | none => rw [hl] at h; cases h
        | some (acc, v2) =>
            rw [hl] at h
            cases h
            exact subset_embedsLoop _ _ _
              (linksLoop_new_visited_in_result (fun t w l1 w1 hw => ih t w l1 w1 hw)
                _ _ _ _ _ hl u hu hnu)
      · cases h
        exact absurd (Finset.mem_insert_of_mem hu) hnu

/-- Every embed target of a newly visited document lands in the result set
or was itself visited. -/
theorem linksLoop_embed_complete {g : Vault n}
    {recurse : Fin n → Finset (Fin n) → Option (WalkRes n)}
    (hmono : ∀ t v l v', recurse t v = some (l, v') → v ⊆ v')
    (hrec : ∀ t v l v', recurse t v = some (l, v') →
      ∀ u ∈ v', u ∉ v → ∀ s, some s ∈ g.embeds u → s ∈ l ∨ s ∈ v') :
    ∀ ls acc v l v', linksLoop true (fun _ => false) recurse ls acc v = some (l, v') →
      ∀ u ∈ v', u ∉ v → ∀ s, some s ∈ g.embeds u → s ∈ l ∨ s ∈ v' := by
  intro ls
  induction ls with
  | nil => intro acc v l v' h u hu hnu; cases h; exact absurd hu hnu
  | cons ol rest ih =>
      intro acc v l v' h u hu hnu s hs
      match ol with
      | none => exact ih _ _ _ _ h u hu hnu s hs
      | some t =>
          rw [linksLoop] at h
          split at h
          · exact ih _ _ _ _ h u hu hnu s hs
          · rw [if_pos rfl, if_neg Bool.false_ne_true] at h
            match hr : recurse t v with
            | none => rw [hr] at h; cases h
            | some (sub, v1) =>
                rw [hr] at h
                by_cases huv1 : u ∈ v1
                · rcases hrec _ _ _ _ hr u huv1 hnu s hs with h1 | h1
                  · exact Or.inl (linksLoop_acc_subset _ _ _ _ _ h
                      (mem_addAll.mpr (Or.inr h1)))
                  · have hv1sub : v1 ⊆ v' :=
                      @linksLoop_mono n true (fun _ => false) recurse hmono _ _ _ _ _ h
                    exact Or.inr (hv1sub h1)
                · exact ih _ _ _ _ h u hu huv1 s hs

theorem getLinkedFilesAux_embed_complete (g : Vault n) :
    ∀ fuel file v l v',
      getLinkedFilesAux g true (fun _ => false) fuel file v = some (l, v') →
      ∀ u ∈ v', u ∉ v → ∀ s, some s ∈ g.embeds u → s ∈ l ∨ s ∈ v' := by
  intro fuel
  induction fuel with
  | zero => intro file v l v' h; cases h
  | succ fuel ih =>
      intro file v l v' h u hu hnu s hs
      rw [getLinkedFilesAux] at h
      split at h
      · match hl : linksLoop true (fun _ => false)
            (fun t w => getLinkedFilesAux g true (fun _ => false) fuel t w)
            (g.links file) [] (insert file v) with
        | none => rw [hl] at h; cases h
        | some (acc, v2) =>
            rw [hl] at h
            cases h
            by_cases hufile : u = file
            · subst hufile
              by_cases hsv : s ∈ v'
              · exact Or.inr hsv
              · exact Or.inl (mem_embedsLoop.mpr (Or.inr ⟨hs, hsv⟩))
            · have := linksLoop_embed_complete
                (fun t w l1 w1 hw => getLinkedFilesAux_mono g true (fun _ => false) fuel t w l1 w1 hw)
                (fun t w l1 w1 hw => ih t w l1 w1 hw)
                _ _ _ _ _ hl u hu
                (fun hins => (Finset.mem_insert.mp hins).elim hufile hnu) s hs
              rcases this with h1 | h1
              · exact Or.inl (subset_embedsLoop _ _ _ h1)
              · exact Or.inr h1
      · cases h; exact absurd hu hnu

/-! Soundness of the result list: everything returned is one link or embed
edge away from a link-reachable cached document, and was unvisited at entry
(so, at top level, is never the root). -/

theorem linksLoop_result_sound {g : Vault n}
    {recurse : Fin n → Finset (Fin n) → Option (WalkRes n)}
    (hmono : ∀ t v l v', recurse t v = some (l, v') → v ⊆ v')
    (hrec : ∀ t v l v', recurse t v = some (l, v') →
      ∀ x ∈ l, x ∉ insert t v ∧
        ∃ u, Steps g t u ∧ g.hasCache u = true ∧ edgeOf g u x) :
    ∀ ls acc v l v', linksLoop true (fun _ => false) recurse ls acc v = some (l, v') →
      ∀ x ∈ l, x ∈ acc ∨ (x ∉ v ∧ ∃ t, some t ∈ ls ∧
        (x = t ∨ ∃ u, Steps g t u ∧ g.hasCache u = true ∧ edgeOf g u x)) := by
  intro ls
  induction ls with
  | nil => intro acc v l v' h x hx; cases h; exact Or.inl hx
  | cons ol rest ih =>
      intro acc v l v' h x hx
      match ol with
      | none =>
          rcases ih _ _ _ _ h x hx with h1 | ⟨h1, t, ht, h2⟩
          · exact Or.inl h1
          · exact Or.inr ⟨h1, t, List.mem_cons_of_mem _ ht, h2⟩
      | some t =>
          rw [linksLoop] at h
          split at h
          · rcases ih _ _ _ _ h x hx with h1 | ⟨h1, t', ht', h2⟩
            · exact Or.inl h1
            · exact Or.inr ⟨h1, t', List.mem_cons_of_mem _ ht', h2⟩
          · rename_i htv
            rw [if_pos rfl, if_neg Bool.false_ne_true] at h
            match hr : recurse t v with
            | none => rw [hr] at h; cases h
            | some (sub, v1) =>
                rw [hr] at h
                rcases ih _ _ _ _ h x hx with h1 | ⟨h1, t', ht', h2⟩
                · rcases mem_addAll.mp h1 with h2 | h2
                  · rcases mem_insertOnce.mp h2 with heq | h3
                    · exact Or.inr ⟨by rw [heq]; exact htv, t,
                        List.mem_cons_self _ _, Or.inl heq⟩
                    · exact Or.inl h3
                  · obtain ⟨hxn, u, hu⟩ := hrec _ _ _ _ hr x h2
                    exact Or.inr ⟨fun hv => hxn (Finset.mem_insert_of_mem hv),
                      t, List.mem_cons_self _ _, Or.inr ⟨u, hu⟩⟩
                · refine Or.inr ⟨fun hv => h1 (hmono _ _ _ _ hr hv),
                    t', List.mem_cons_of_mem _ ht', h2⟩

theorem getLinkedFilesAux_result_sound (g : Vault n) :
    ∀ fuel file v l v',
      getLinkedFilesAux g true (fun _ => false) fuel file v = some (l, v') →
      ∀ x ∈ l, x ∉ insert file v ∧
        ∃ u, Steps g file u ∧ g.hasCache u = true ∧ edgeOf g u x := by
  intro fuel
  induction fuel with
  | zero => intro file v l v' h; cases h
  | succ fuel ih =>
      intro file v l v' h x hx
      rw [getLinkedFilesAux] at h
      split at h
      · rename_i hcond
        match hl : linksLoop true (fun _ => false)
            (fun t w => getLinkedFilesAux g true (fun _ => false) fuel t w)
            (g.links file) [] (insert file v) with
        | none => rw [hl] at h; cases h
        | some (acc, v2) =>
            rw [hl] at h
            cases h
            have hinsv2 : insert file v ⊆ v' :=
              @linksLoop_mono n true (fun _ => false) _
                (fun t w l1 w1 hw => getLinkedFilesAux_mono g true (fun _ => false) fuel t w l1 w1 hw)
                _ _ _ _ _ hl
            rcases mem_embedsLoop.mp hx with h1 | ⟨h1, h2⟩
            · rcases linksLoop_result_sound
                  (fun t w l1 w1 hw => getLinkedFilesAux_mono g true (fun _ => false) fuel t w l1 w1 hw)
                  (fun t w l1 w1 hw => ih t w l1 w1 hw)
                  _ _ _ _ _ hl x h1 with h2 | ⟨h2, t, ht, h3⟩
              · cases h2
              · refine ⟨h2, ?_⟩
                rcases h3 with rfl | ⟨u, hsteps, hcu, hedge⟩
                · exact ⟨file, Relation.ReflTransGen.refl, hcond.1, Or.inl ht⟩
                · exact ⟨u, Relation.ReflTransGen.head ⟨hcond.1, ht⟩ hsteps, hcu, hedge⟩
            · exact ⟨fun hv => h2 (hinsv2 hv),
                file, Relation.ReflTransGen.refl, hcond.1, Or.inr h1⟩
      · cases h; cases hx

/-! The walk never opens a document reached only through an embed edge: the
whole computation reads the cache of the root and of link-reachable
documents only.  This is proved as a congruence (frame) theorem — two vaults
agreeing on the link-reachable region produce identical walks — together
with the guarantee that embed targets of every link-reached document are in
the result. -/

theorem linksLoop_congr {rd : Bool} {fault : Fin n → Bool}
    {recurse recurse' : Fin n → Finset (Fin n) → Option (WalkRes n)} :
    ∀ ls, (∀ t, some t ∈ ls → ∀ w, recurse t w = recurse' t w) →
      ∀ acc v, linksLoop rd fault recurse ls acc v = linksLoop rd fault recurse' ls acc v := by
  intro ls
  induction ls with
  | nil => intro h acc v; rfl
  | cons ol rest ih =>
      intro h acc v
      match ol with
      | none =>
          rw [linksLoop, linksLoop]
          exact ih (fun u hu w => h u (List.mem_cons_of_mem _ hu) w) _ _
      | some t =>
          rw [linksLoop, linksLoop]
          split
          · exact ih (fun u hu w => h u (List.mem_cons_of_mem _ hu) w) _ _
          · cases rd with
            | false =>
                simp only [Bool.false_eq_true, if_false]
                exact ih (fun u hu w => h u (List.mem_cons_of_mem _ hu) w) _ _
            | true =>
                simp only [if_true]
                cases hf : fault t with
                | true =>
                    simp only [if_true]
                    exact ih (fun u hu w => h u (List.mem_cons_of_mem _ hu) w) _ _
                | false =>
                    simp only [Bool.false_eq_true, if_false]
                    rw [h t (List.mem_cons_self _ _) v]
                    match recurse' t v with
                    | none => rfl
                    | some (sub, v1) =>
                        exact ih (fun u hu w => h u (List.mem_cons_of_mem _ hu) w) _ _

/-- Frame property of the walker: the computation from `file` only reads the
cache entries (cache flag, link list, embed list) of documents
link-reachable from `file`, so any two vaults agreeing there give the same
run — for every fuel, visited set, recursive-descent setting and fault
pattern. -/
theorem getLinkedFilesAux_congr (g g' : Vault n) (rd : Bool) (fault : Fin n → Bool) :
    ∀ fuel file v,
      (∀ u, Steps g file u → g.hasCache u = g'.hasCache u ∧
        g.links u = g'.links u ∧ g.embeds u = g'.embeds u) →
      getLinkedFilesAux g rd fault fuel file v = getLinkedFilesAux g' rd fault fuel file v := by
  intro fuel
  induction fuel with
  | zero => intro file v hagree; rfl
  | succ fuel ih =>
      intro file v hagree
      obtain ⟨hc0, hl0, he0⟩ := hagree file Relation.ReflTransGen.refl
      rw [getLinkedFilesAux, getLinkedFilesAux]
      by_cases hcond : g.hasCache file = true ∧ file ∉ v
      · have hcond' : g'.hasCache file = true ∧ file ∉ v := ⟨hc0 ▸ hcond.1, hcond.2⟩
        rw [if_pos hcond, if_pos hcond']
        have hloop : linksLoop rd fault (fun t w => getLinkedFilesAux g rd fault fuel t w)
              (g.links file) [] (insert file v) =
            linksLoop rd fault (fun t w => getLinkedFilesAux g' rd fault fuel t w)
              (g'.links file) [] (insert file v) := by
          rw [← hl0]
          apply linksLoop_congr
          intro t ht w
          apply ih
          intro u hu
          exact hagree u (Relation.ReflTransGen.head ⟨hcond.1, ht⟩ hu)
        rw [hloop, ← he0]
      · have hcond' : ¬ (g'.hasCache file = true ∧ file ∉ v) := by
          rw [← hc0]; exact hcond
        rw [if_neg hcond, if_neg hcond']

/-- Every cached document link-reachable from the root is in the final
visited set of a top-level walk (arbitrary vaults). -/
theorem getLinkedFilesAux_steps_visited (g : Vault n) (fuel : ℕ) (root : Fin n)
    (l : List (Fin n)) (v' : Finset (Fin n))
    (h : getLinkedFilesAux g true (fun _ => false) fuel root ∅ = some (l, v')) :
    ∀ w, Steps g root w → g.hasCache w = true → w ∈ v' := by
  intro w hsw
  induction hsw with
  | refl =>
      intro hc
      exact getLinkedFilesAux_visited_entry g true (fun _ => false) _ _ _ _ _ h hc
  | tail hab hbc ihw =>
      rename_i b c
      intro hc
      exact getLinkedFilesAux_closure g _ _ _ _ _ h b (ihw hbc.1)
        (Finset.not_mem_empty b) c hbc.2 hc

/-- C4: a document reached through an embed edge is added to the result at
the point of discovery but never itself traversed.  First conjunct (never
traversed, for every root and both recursive-descent settings): the walk
reads only the cache data of the root and of documents reachable from it
through resolvable *link* edges, so two vaults agreeing there — the embedded
documents' own links and embeds may differ arbitrarily — produce identical
walks.  Second conjunct (added at discovery): on a full recursive walk,
every resolvable embed target of every link-reachable cached document is in
the result unless it is the root itself.  Third and fourth conjuncts:
concretely, root `A` embedding `img.png` walks to exactly `[img.png]` with
recursion on or off although `img.png` has further references, and in a
mixed vault (root links note 1 and embeds 2, note 1 embeds 3, document 2
links on to 4) the recursive walk returns `[1, 3, 2]` and the flat walk
`[1, 2]` — document 2's own link to 4 is never followed. -/
theorem C4_embeds_not_traversed :
    (∀ (n : ℕ) (g g' : Vault n) (rd : Bool) (fault : Fin n → Bool) (root : Fin n),
        (∀ u, Steps g root u → g.hasCache u = g'.hasCache u ∧
          g.links u = g'.links u ∧ g.embeds u = g'.embeds u) →
        walk g rd fault root = walk g' rd fault root) ∧
    (∀ (n : ℕ) (g : Vault n) (root u s : Fin n),
        Steps g root u → g.hasCache u = true → some s ∈ g.embeds u → s ≠ root →
        s ∈ walk g true (fun _ => false) root) ∧
    (walk embedVault true (fun _ => false) 0 = [1] ∧
      walk embedVault false (fun _ => false) 0 = [1]) ∧
    (walk linkEmbedVault true (fun _ => false) 0 = [1, 3, 2] ∧
      walk linkEmbedVault false (fun _ => false) 0 = [1, 2]) := by
  refine ⟨?_, ?_, ⟨by decide, by decide⟩, ⟨by decide, by decide⟩⟩
  · intro n g g' rd fault root hagree
    unfold walk
    rw [getLinkedFilesAux_congr g g' rd fault (n + 1) root ∅ hagree]
  · intro n g root u s hsteps hcu hmem hne
    have hfuel : (Finset.univ \ (∅ : Finset (Fin n))).card < n + 1 := by
      rw [Finset.sdiff_empty, Finset.card_univ, Fintype.card_fin]; omega
    have hsome := getLinkedFilesAux_isSome g true (fun _ => false) (n + 1) root ∅ hfuel
    unfold walk
    match hw : getLinkedFilesAux g true (fun _ => false) (n + 1) root ∅ with
    | none => rw [hw] at hsome; cases hsome
    | some (l, v') =>
        have huv : u ∈ v' := getLinkedFilesAux_steps_visited g _ _ _ _ hw u hsteps hcu
        rcases getLinkedFilesAux_embed_complete g _ _ _ _ _ hw u huv
            (Finset.not_mem_empty u) s hmem with h1 | h1
        · exact h1
        · exact getLinkedFilesAux_new_visited_in_result g _ _ _ _ _ hw s h1 (by simp [hne])

/-- Closed witness for `C4_embeds_not_traversed`: at the mixed scenario,
pruning the embed-reached document's own references does not change the
walk (first conjunct applied — document 2 is not link-reachable, so the two
vaults agree on the reachable region), and the embed target 3 of the
link-reached note 1 is found (second conjunct applied). -/
theorem C4_embeds_not_traversed_witness :
    walk linkEmbedVault true (fun _ => false) 0 =
        walk linkEmbedVaultPruned true (fun _ => false) 0 ∧
      (3 : Fin 5) ∈ walk linkEmbedVault true (fun _ => false) 0 := by
  constructor
  · apply C4_embeds_not_traversed.1 5 linkEmbedVault linkEmbedVaultPruned true
      (fun _ => false) 0
    intro u hu
    have hreach : u = 0 ∨ u = 1 := by
      induction hu with
      | refl => exact Or.inl rfl
      | tail hab hbc ih =>
          rename_i b c
          rcases ih with rfl | rfl
          · have h2 := hbc.2
            simp [linkEmbedVault] at h2
            exact Or.inr h2
          · have h2 := hbc.2
            simp [linkEmbedVault] at h2
    rcases hreach with rfl | rfl
    · exact ⟨by decide, by decide, by decide⟩
    · exact ⟨by decide, by decide, by decide⟩
  · exact C4_embeds_not_traversed.2.1 5 linkEmbedVault 0 1 3
      (Relation.ReflTransGen.single ⟨by decide, by decide⟩) (by decide) (by decide) (by decide)

/-- C2: with recursive descent enabled (and no faults), the walk of a root
over a fully cached vault returns exactly the documents that are one
resolvable link or embed edge away from some document link-reachable from
the root — links followed transitively, embeds one level deep — with the
root itself excluded.  (Proved for arbitrary vaults, hence in particular for
the acyclic ones of the claim.) -/
theorem C2_walk_is_reachable_set (g : Vault n) (root x : Fin n)
    (hall : ∀ f, g.hasCache f = true) :
    x ∈ walk g true (fun _ => false) root ↔
      x ≠ root ∧ ∃ u, Relation.ReflTransGen (fun a b => some b ∈ g.links a) root u ∧
        (some x ∈ g.links u ∨ some x ∈ g.embeds u) := by
  have hfuel : (Finset.univ \ (∅ : Finset (Fin n))).card < n + 1 := by
    rw [Finset.sdiff_empty, Finset.card_univ, Fintype.card_fin]; omega
  have hsome := getLinkedFilesAux_isSome g true (fun _ => false) (n + 1) root ∅ hfuel
  unfold walk
  match hw : getLinkedFilesAux g true (fun _ => false) (n + 1) root ∅ with
  | none => rw [hw] at hsome; cases hsome
  | some (l, v') =>
      constructor
      · intro hx
        obtain ⟨hnx, u, hsteps, hcu, hedge⟩ :=
          getLinkedFilesAux_result_sound g _ _ _ _ _ hw x hx
        refine ⟨fun hxr => hnx (by simp [hxr]), u, ?_, hedge⟩
        exact Relation.ReflTransGen.mono (fun a b hab => hab.2) hsteps
      · rintro ⟨hnx, u, hsteps, hedge⟩
        have hgsteps : Steps g root u :=
          Relation.ReflTransGen.mono (fun a b hb => ⟨hall a, hb⟩) hsteps
        have huv : ∀ w, Steps g root w → w ∈ v' := by
          intro w hsw
          induction hsw with
          | refl =>
              exact getLinkedFilesAux_visited_entry g true (fun _ => false)
                _ _ _ _ _ hw (hall root)
          | tail hab hbc ihw =>
              rename_i b c
              exact getLinkedFilesAux_closure g _ _ _ _ _ hw b ihw
                (Finset.not_mem_empty b) c hbc.2 (hall c)
        have hxv : x ∈ l ∨ x ∈ v' := by
          rcases hedge with hlk | hem
          · exact Or.inr (getLinkedFilesAux_closure g _ _ _ _ _ hw u (huv u hgsteps)
              (Finset.not_mem_empty u) x hlk (hall x))
          · exact getLinkedFilesAux_embed_complete g _ _ _ _ _ hw u (huv u hgsteps)
              (Finset.not_mem_empty u) x hem
        rcases hxv with h1 | h1
        · exact h1
        · exact getLinkedFilesAux_new_visited_in_result g _ _ _ _ _ hw x h1
            (by simp [hnx])

/-- Closed witness for `C2_walk_is_reachable_set` on a concrete two-document
vault (0 links to 1): the hypothesis holds, and both directions produce the
expected membership facts. -/
theorem C2_walk_is_reachable_set_witness :
    (1 : Fin 2) ∈ walk chainVault true (fun _ => false) 0 :=
  (C2_walk_is_reachable_set chainVault 0 1 (by decide)).mpr
    ⟨by decide, 0, Relation.ReflTransGen.refl, Or.inl (by decide)⟩

/-! ### Claims about the filter and the rewriter -/

/-- C5: the filter is the identity in mode `both`; in mode `notes-only` it
keeps exactly the files with extension `md`; and in mode `attachments-only`
it returns exactly the input minus the notes-only result — the two
restricted modes partition the `both` result. -/
theorem C5_filter_modes (files : List TFile) :
    filterFilesToDelete DeleteMode.both files = files ∧
    filterFilesToDelete DeleteMode.notesOnly files =
      files.filter (fun f => decide (f.extension = ['m', 'd'])) ∧
    filterFilesToDelete DeleteMode.attachmentsOnly files =
      files.filter fun f => decide (f ∉ filterFilesToDelete DeleteMode.notesOnly files) := by
  refine ⟨?_, ?_, ?_⟩
  · unfold filterFilesToDelete
    rw [List.filter_eq_self]
    intro f _
    simp
  · unfold filterFilesToDelete
    apply List.filter_congr
    intro f _
    by_cases h : f.extension = ['m', 'd'] <;> simp [h]
  · unfold filterFilesToDelete
    apply List.filter_congr
    intro f hf
    by_cases h : f.extension = ['m', 'd'] <;>
      simp [List.mem_filter, hf, h]

/-- C3 (code bug): the name derivation of src/main.ts:166 leaves the
filename `Note.md` unchanged — its regex `/\.md\\$/` only matches the
suffix `.md` followed by a literal backslash, although the code's own
comment says it strips the `.md` extension.  Consequently the built pattern
(which, through the doubled escaping of src/main.ts:219, demands a literal
backslash inside the bracketed reference) never matches the referencing
line `See [[Note]] for details`, so under the placeholder policy the
document is left unwritten instead of becoming `See BACKLINK REMOVED for
details`.  With the intended bare display name `Note` the code produces
exactly the specified output. -/
theorem C3_display_name_bug :
    deriveName (("Note.md").toList) = ("Note.md").toList ∧
    removeBacklinksInFile (backlinkNames [⟨("Note.md").toList, ['m', 'd']⟩])
      InlinePolicy.addNote false (("See [[Note]] for details").toList) = none ∧
    removeBacklinksInFile [("Note").toList] InlinePolicy.addNote false
      (("See [[Note]] for details").toList) =
      some (("See BACKLINK REMOVED for details").toList) :=
  ⟨by decide, by decide, by decide⟩

/-- Processing a concatenation of line blocks processes each block
independently: the outputs concatenate and the changed flags disjoin. -/
theorem processLinesLoop_append (names : List (List Char)) (policy : InlinePolicy)
    (considerList : Bool) (a b : List (List Char)) :
    processLinesLoop names policy considerList (a ++ b) =
      ((processLinesLoop names policy considerList a).1 ++
        (processLinesLoop names policy considerList b).1,
       (processLinesLoop names policy considerList a).2 ||
        (processLinesLoop names policy considerList b).2) := by
  induction a with
  | nil => simp [processLinesLoop]
  | cons line rest ih =>
      show processLinesLoop names policy considerList (line :: (rest ++ b)) = _
      rw [processLinesLoop, processLinesLoop, ih]
      by_cases h : isStandaloneLink considerList line = true <;> simp [h, Bool.or_assoc]

/-- C6 (code bug): the first half of the claim holds — a line whose trimmed
content is exactly `[[Note]]` is dropped from the output wherever it occurs,
under every rewrite policy, every setting and every deletion list, and the
document is marked changed.  The second half fails: because of the
name-escaping bug the inline reference in `See [[Note]] for details` is not
transformed at all when `Note.md` is deleted — under every rewrite policy
the document is left unwritten. -/
theorem C6_standalone_dropped_inline_untouched :
    (∀ (names : List (List Char)) (policy : InlinePolicy) (considerList : Bool)
        (pre post : List (List Char)),
        processLinesLoop names policy considerList (pre ++ ("[[Note]]").toList :: post) =
          ((processLinesLoop names policy considerList pre).1 ++
            (processLinesLoop names policy considerList post).1, true)) ∧
    ∀ policy : InlinePolicy,
      removeBacklinksInFile (backlinkNames [⟨("Note.md").toList, ['m', 'd']⟩]) policy false
        (("See [[Note]] for details").toList) = none := by
  constructor
  · intro names policy considerList pre post
    rw [processLinesLoop_append, processLinesLoop]
    have hsa : isStandaloneLink considerList ['[', '[', 'N', 'o', 't', 'e', ']', ']'] = true := by
      cases considerList <;> decide
    simp [hsa]
  · intro policy
    cases policy <;> decide

/-- Closed witness for `C6_standalone_dropped_inline_untouched`: applied at
a concrete surrounding document. -/
theorem C6_standalone_dropped_inline_untouched_witness :
    processLinesLoop [] InlinePolicy.addNote false
        [("before").toList, ("[[Note]]").toList, ("after").toList] =
      ([("before").toList, ("after").toList], true) := by
  have h := C6_standalone_dropped_inline_untouched.1 [] InlinePolicy.addNote false
    [("before").toList] [("after").toList]
  simp only [List.cons_append, List.nil_append] at h
  rw [h]
  decide

/-! Characterisation of the per-line rewriting and of the changed flag. -/

theorem rewriteNamesLoop_snd_true (policy : InlinePolicy) (names : List (List Char))
    (line : List Char) : (rewriteNamesLoop policy names (line, true)).2 = true := by
  induction names generalizing line with
  | nil => rfl
  | cons name rest ih =>
      rw [rewriteNamesLoop]
      split
      · exact ih _
      · exact ih _

theorem rewriteNamesLoop_no_match (policy : InlinePolicy) (names : List (List Char))
    (line : List Char) (c : Bool)
    (h : ∀ name ∈ names, patTest (parseAtoms (escapeName name)) line = false) :
    rewriteNamesLoop policy names (line, c) = (line, c) := by
  induction names with
  | nil => rfl
  | cons name rest ih =>
      rw [rewriteNamesLoop]
      rw [h name (List.mem_cons_self _ _)]
      simp only [Bool.false_eq_true, if_false]
      exact ih fun nm hnm => h nm (List.mem_cons_of_mem _ hnm)

theorem rewriteNamesLoop_snd_false_iff (policy : InlinePolicy) (names : List (List Char))
    (line : List Char) :
    (rewriteNamesLoop policy names (line, false)).2 = false ↔
      ∀ name ∈ names, patTest (parseAtoms (escapeName name)) line = false := by
  induction names generalizing line with
  | nil => simp [rewriteNamesLoop]
  | cons name rest ih =>
      rw [rewriteNamesLoop]
      by_cases h : patTest (parseAtoms (escapeName name)) line = true
      · rw [if_pos h, rewriteNamesLoop_snd_true]
        constructor
        · intro hfalse; cases hfalse
        · intro hall
          rw [hall name (List.mem_cons_self _ _)] at h
          cases h
      · rw [if_neg h]
        rw [ih]
        constructor
        · intro hall nm hnm
          rcases List.mem_cons.mp hnm with rfl | hmem
          · exact Bool.not_eq_true _ |>.mp h
          · exact hall nm hmem
        · intro hall nm hnm
          exact hall nm (List.mem_cons_of_mem _ hnm)

theorem rewriteNamesLoop_snd_false_eq (policy : InlinePolicy) (names : List (List Char))
    (line : List Char)
    (h : (rewriteNamesLoop policy names (line, false)).2 = false) :
    rewriteNamesLoop policy names (line, false) = (line, false) :=
  rewriteNamesLoop_no_match policy names line false
    ((rewriteNamesLoop_snd_false_iff policy names line).mp h)

/-- The output lines are exactly the non-standalone input lines, each run
through the per-name inline rewriting. -/
theorem processLinesLoop_fst_filter_map (names : List (List Char)) (policy : InlinePolicy)
    (considerList : Bool) (ls : List (List Char)) :
    (processLinesLoop names policy considerList ls).1 =
      (ls.filter fun l => ! isStandaloneLink considerList l).map
        fun l => (rewriteNamesLoop policy names (l, false)).1 := by
  induction ls with
  | nil => rfl
  | cons line rest ih =>
      rw [processLinesLoop, List.filter_cons]
      by_cases h : isStandaloneLink considerList line = true
      · simp only [h, if_true, Bool.not_true, ih]
        rfl
      · rw [Bool.not_eq_true] at h
        simp only [h, Bool.not_false, if_true, List.map_cons, ih]
        rfl

/-- The changed flag stays clear exactly when no line is standalone and no
pattern of any deleted file's name matches any line. -/
theorem processLinesLoop_snd_false_iff (names : List (List Char)) (policy : InlinePolicy)
    (considerList : Bool) (ls : List (List Char)) :
    (processLinesLoop names policy considerList ls).2 = false ↔
      ∀ line ∈ ls, isStandaloneLink considerList line = false ∧
        ∀ name ∈ names, patTest (parseAtoms (escapeName name)) line = false := by
  induction ls with
  | nil => simp [processLinesLoop]
  | cons line rest ih =>
      rw [processLinesLoop]
      by_cases h : isStandaloneLink considerList line = true
      · simp only [h, if_true]
        constructor
        · intro hfalse; cases hfalse
        · intro hall
          rw [(hall line (List.mem_cons_self _ _)).1] at h
          cases h
      · rw [if_neg h]
        rw [Bool.not_eq_true] at h
        simp only [Bool.or_eq_false_iff]
        rw [ih, rewriteNamesLoop_snd_false_iff]
        constructor
        · rintro ⟨h1, h2⟩ line' hl'
          rcases List.mem_cons.mp hl' with rfl | hmem
          · exact ⟨h, h1⟩
          · exact h2 line' hmem
        · intro hall
          exact ⟨(hall line (List.mem_cons_self _ _)).2,
            fun line' hl' => hall line' (List.mem_cons_of_mem _ hl')⟩

/-- On a fully quiet document — no standalone line, no pattern match — the
loop returns the lines untouched and the changed flag clear. -/
theorem processLinesLoop_no_change (names : List (List Char)) (policy : InlinePolicy)
    (considerList : Bool) (ls : List (List Char))
    (h : ∀ line ∈ ls, isStandaloneLink considerList line = false ∧
      ∀ name ∈ names, patTest (parseAtoms (escapeName name)) line = false) :
    processLinesLoop names policy considerList ls = (ls, false) := by
  induction ls with
  | nil => rfl
  | cons line rest ih =>
      rw [processLinesLoop]
      rw [if_neg (by rw [(h line (List.mem_cons_self _ _)).1]; exact Bool.false_ne_true)]
      rw [rewriteNamesLoop_no_match policy names line false
        (h line (List.mem_cons_self _ _)).2]
      rw [ih fun l hl => h l (List.mem_cons_of_mem _ hl)]
      rfl

/-- C9: a referencing document is written back (the rewriter calls
`vault.modify`, here: the function returns `some newContent`) exactly when
the changed flag was raised — i.e. unless no line was dropped as a
standalone reference and no deleted file's pattern matched any line; and on
an unwritten document the computed line list is identical to the original
split, so its stored content stays what it was. -/
theorem C9_written_only_when_changed (names : List (List Char)) (policy : InlinePolicy)
    (considerList : Bool) (data : List Char) :
    (removeBacklinksInFile names policy considerList data = none ↔
      ∀ line ∈ splitNl data, isStandaloneLink considerList line = false ∧
        ∀ name ∈ names, patTest (parseAtoms (escapeName name)) line = false) ∧
    (removeBacklinksInFile names policy considerList data = none →
      processLinesLoop names policy considerList (splitNl data) = (splitNl data, false)) := by
  have hnone : removeBacklinksInFile names policy considerList data = none ↔
      (processLinesLoop names policy considerList (splitNl data)).2 = false := by
    unfold removeBacklinksInFile
    constructor
    · intro h
      by_cases hc : (processLinesLoop names policy considerList (splitNl data)).2 = true
      · rw [if_pos hc] at h; cases h
      · exact Bool.not_eq_true _ |>.mp hc
    · intro h
      rw [if_neg (by rw [h]; exact Bool.false_ne_true)]
  constructor
  · rw [hnone, processLinesLoop_snd_false_iff]
  · intro h
    exact processLinesLoop_no_change names policy considerList (splitNl data)
      ((processLinesLoop_snd_false_iff names policy considerList (splitNl data)).mp
        (hnone.mp h))

/-- Closed witness for `C9_written_only_when_changed`: a document with no
reference to the deleted file is not written, and its line list is
untouched. -/
theorem C9_written_only_when_changed_witness :
    removeBacklinksInFile [("Note.md").toList] InlinePolicy.addNote false
        (("just text\nno references").toList) = none ∧
      processLinesLoop [("Note.md").toList] InlinePolicy.addNote false
        (splitNl (("just text\nno references").toList)) =
          (splitNl (("just text\nno references").toList), false) := by
  have h := C9_written_only_when_changed [("Note.md").toList] InlinePolicy.addNote false
    (("just text\nno references").toList)
  have hn : removeBacklinksInFile [("Note.md").toList] InlinePolicy.addNote false
      (("just text\nno references").toList) = none := h.1.mpr (by decide)
  exact ⟨hn, h.2 hn⟩

/-! Shape of the standalone-reference test: on trimmed input it accepts
exactly the lines that start with `[[` and end with `]]`. -/

theorem dropWhile_idem (p : Char → Bool) (l : List Char) :
    (l.dropWhile p).dropWhile p = l.dropWhile p := by
  induction l with
  | nil => rfl
  | cons a l ih =>
      by_cases h : p a = true
      · simp [List.dropWhile, h, ih]
      · simp [List.dropWhile, h]

theorem head_not_of_dropWhile_fixed {p : Char → Bool} {a : Char} {l : List Char}
    (h : (a :: l).dropWhile p = a :: l) : ¬ p a = true := by
  intro hpa
  rw [List.dropWhile_cons_of_pos hpa] at h
  have hlen := congrArg List.length h
  have hle : (l.dropWhile p).length ≤ l.length := (List.dropWhile_sublist p).length_le
  simp only [List.length_cons] at hlen
  omega

theorem dropWhile_fixed_append {p : Char → Bool} {y z : List Char}
    (h : (y ++ z).dropWhile p = y ++ z) : y.dropWhile p = y := by
  match y with
  | [] => rfl
  | a :: ys =>
      rw [List.cons_append] at h
      have hna := head_not_of_dropWhile_fixed h
      rw [List.dropWhile_cons_of_neg hna]

theorem trimList_reverse_fixed (l : List Char) :
    (trimList l).reverse.dropWhile isWsChar = (trimList l).reverse := by
  unfold trimList
  rw [List.reverse_reverse]
  exact dropWhile_idem _ _

theorem trimList_fixed (l : List Char) :
    (trimList l).dropWhile isWsChar = trimList l := by
  unfold trimList
  have hsplit : (List.dropWhile isWsChar ((l.dropWhile isWsChar).reverse)).reverse ++
      (List.takeWhile isWsChar ((l.dropWhile isWsChar).reverse)).reverse =
      l.dropWhile isWsChar := by
    rw [← List.reverse_append, List.takeWhile_append_dropWhile, List.reverse_reverse]
  have hfix : (l.dropWhile isWsChar).dropWhile isWsChar = l.dropWhile isWsChar :=
    dropWhile_idem _ _
  rw [← hsplit] at hfix
  exact dropWhile_fixed_append hfix

theorem all_reverse (p : Char → Bool) (l : List Char) :
    l.reverse.all p = l.all p := by
  induction l with
  | nil => rfl
  | cons a l ih => simp [List.all_append, ih, Bool.and_comm]

/-- On input that is trimmed on both sides (as `trimmedLine` always is), the
standalone-reference regex accepts exactly the strings of the form
`[[` … `]]` with no line terminator in between. -/
theorem reStandaloneCore_shape (s : List Char)
    (hfix : s.dropWhile isWsChar = s)
    (hrfix : s.reverse.dropWhile isWsChar = s.reverse) :
    reStandaloneCore s = true ↔
      ∃ mid, s = '[' :: '[' :: (mid ++ [']', ']']) ∧
        mid.all (fun c => c ≠ '\n') = true := by
  unfold reStandaloneCore
  rw [hfix]
  split
  · rename_i rest
    have hb : rest.reverse.dropWhile isWsChar = rest.reverse := by
      apply dropWhile_fixed_append
      have : ('[' :: '[' :: rest).reverse = rest.reverse ++ ['[', '['] := by simp
      rw [← this]
      exact hrfix
    rw [hb]
    split
    · rename_i mid2 heq2
      have hrest : rest = mid2.reverse ++ [']', ']'] := by
        have := congrArg List.reverse heq2
        simpa using this
      constructor
      · intro hall
        exact ⟨mid2.reverse, by rw [hrest], by rw [all_reverse]; exact hall⟩
      · rintro ⟨mid, heq3, hall⟩
        have h1 : rest = mid ++ [']', ']'] := by
          injection heq3 with _ h1
          injection h1 with _ h1
        have h2 : mid2 = mid.reverse := by
          rw [h1] at heq2
          simp at heq2
          exact heq2.symm
        rw [h2, all_reverse]
        exact hall
    · rename_i hnomatch
      constructor
      · intro hfalse; cases hfalse
      · rintro ⟨mid, heq3, hall⟩
        exfalso
        have h1 : rest = mid ++ [']', ']'] := by
          injection heq3 with _ h1
          injection h1 with _ h1
        exact hnomatch mid.reverse (by rw [h1]; simp)
  · rename_i hnomatch
    constructor
    · intro hfalse; cases hfalse
    · rintro ⟨mid, heq3, _⟩
      exact absurd heq3 fun h => hnomatch _ h

/-- C10: standalone-line removal is indiscriminate.  First conjunct: the
output of the per-line loop is exactly the input minus every line the
standalone test accepts, with the inline rewriting mapped over the kept
lines — the drop test receives no deleted-file name at all.  Second
conjunct: on a trimmed line (no line terminator inside), the standalone
test accepts exactly the lines that start with `[[` and end with `]]`,
whatever and however many references sit in between.  Third conjunct: the
line `[[a]] [[b]]` is dropped and the document marked changed for every
deletion list — the targets `a` and `b` need not be deleted files. -/
theorem C10_standalone_drop_is_indiscriminate :
    (∀ (names : List (List Char)) (policy : InlinePolicy) (considerList : Bool)
        (ls : List (List Char)),
        (processLinesLoop names policy considerList ls).1 =
          (ls.filter fun l => ! isStandaloneLink considerList l).map
            fun l => (rewriteNamesLoop policy names (l, false)).1) ∧
    (∀ s : List Char, s.dropWhile isWsChar = s → s.reverse.dropWhile isWsChar = s.reverse →
        (∀ c ∈ s, c ≠ '\n') →
        (reStandaloneCore s = true ↔ ∃ mid, s = '[' :: '[' :: (mid ++ [']', ']']))) ∧
    (∀ (names : List (List Char)) (policy : InlinePolicy) (considerList : Bool),
        processLinesLoop names policy considerList [("[[a]] [[b]]").toList] = ([], true)) := by
  refine ⟨processLinesLoop_fst_filter_map, ?_, ?_⟩
  · intro s hfix hrfix hnl
    rw [reStandaloneCore_shape s hfix hrfix]
    constructor
    · rintro ⟨mid, heq, _⟩; exact ⟨mid, heq⟩
    · rintro ⟨mid, heq⟩
      refine ⟨mid, heq, ?_⟩
      rw [List.all_eq_true]
      intro c hc
      have : c ∈ s := by
        rw [heq]
        exact List.mem_cons_of_mem _ (List.mem_cons_of_mem _ (List.mem_append_left _ hc))
      simpa using hnl c this
  · intro names policy considerList
    rw [processLinesLoop]
    have hsa : isStandaloneLink considerList
        ['[', '[', 'a', ']', ']', ' ', '[', '[', 'b', ']', ']'] = true := by
      cases considerList <;> decide
    simp [hsa, processLinesLoop]

/-- Closed witness for `C10_standalone_drop_is_indiscriminate`: a line with
two references to undeleted targets is dropped, and the shape
characterisation holds at `[[x]]`. -/
theorem C10_standalone_drop_is_indiscriminate_witness :
    processLinesLoop [("Other.md").toList] InlinePolicy.addNote false
        [("[[a]] [[b]]").toList] = ([], true) ∧
      (reStandaloneCore (("[[x]]").toList) = true ↔
        ∃ mid, ("[[x]]").toList = '[' :: '[' :: (mid ++ [']', ']'])) :=
  ⟨C10_standalone_drop_is_indiscriminate.2.2 [("Other.md").toList] InlinePolicy.addNote false,
    C10_standalone_drop_is_indiscriminate.2.1 (("[[x]]").toList)
      (by decide) (by decide) (by decide)⟩

end RecursiveDelete
